import Mathlib

/-!
Verification development for the `germinate` templating library.

The embedding models the seed pipeline (`src/seed.rs` together with
`src/loader/mod.rs`): tokenizing a template with the pattern
`%([a-z0-9]+):([^%]+)%`, resolving each tag to a `Source`, lazily
instantiating and caching loaders in a map, loading values, and finally
substituting each placeholder literal by its value with `str::replace`.

Strings are modelled as `List Char`.  External behaviour (environment
variables, AWS calls) is abstracted by a parameter `B : Source → Str →
Except Err Str` giving the behaviour of each built-in source's default
loader; custom loaders are arbitrary functions.  `anyhow` errors are
modelled as the chain of context messages, outermost first.
-/

namespace Germinate

abbrev Str := List Char

/-- Error values: the chain of `anyhow` context messages, outermost first. -/
abbrev Err := List Str

/-! ## Tokenizer (the regex `(%([a-z0-9]+):([^%]+)%)` in `Seed::parse`) -/

/-- Characters allowed in a placeholder tag: the class `[a-z0-9]`. -/
def tagChar (c : Char) : Bool :=
  ('a' ≤ c && c ≤ 'z') || ('0' ≤ c && c ≤ '9')

/-- One placeholder occurrence: capture 2 (tag) and capture 3 (key). -/
structure Placeholder where
  tag : Str
  key : Str
deriving DecidableEq, Repr

/-- Capture 1: the full matched text `%tag:key%`, used as replacement key. -/
def Placeholder.literal (p : Placeholder) : Str :=
  '%' :: (p.tag ++ ':' :: (p.key ++ ['%']))

/-- Well-formedness of a placeholder as produced by the grammar:
nonempty tag of `[a-z0-9]` characters, nonempty key free of `%`. -/
def Placeholder.WF (p : Placeholder) : Prop :=
  p.tag ≠ [] ∧ (∀ c ∈ p.tag, tagChar c = true) ∧
    p.key ≠ [] ∧ (∀ c ∈ p.key, c ≠ '%')

instance (p : Placeholder) : Decidable p.WF := by
  unfold Placeholder.WF; infer_instance

/-- Try to match the placeholder pattern at the very start of `s`.
Returns the parsed placeholder and the remaining input.  Mirrors the
regex: `%`, a maximal nonempty run of `[a-z0-9]`, `:`, a maximal
nonempty run of `[^%]`, `%` (for this pattern the greedy runs are the
only possible ones, see `matchAt_complete`). -/
def matchAt : Str → Option (Placeholder × Str)
  | [] => none
  | c :: rest =>
    if c ≠ '%' then none
    else if rest.takeWhile tagChar = [] then none
    else
      match rest.dropWhile tagChar with
      | [] => none
      | d :: r2 =>
        if d ≠ ':' then none
        else if r2.takeWhile (fun x => x != '%') = [] then none
        else
          match r2.dropWhile (fun x => x != '%') with
          | [] => none
          | e :: r4 =>
            if e ≠ '%' then none
            else some (⟨rest.takeWhile tagChar, r2.takeWhile (fun x => x != '%')⟩, r4)

/-- Left-to-right scan collecting non-overlapping matches, with explicit
fuel (the fuel is always instantiated with the length of the input). -/
def scanFuel : Nat → Str → List Placeholder
  | 0, _ => []
  | _ + 1, [] => []
  | n + 1, c :: rest =>
    match matchAt (c :: rest) with
    | some (p, r) => p :: scanFuel n r
    | none => scanFuel n rest

/-- The ordered list of placeholder occurrences of a template, as found
by `captures_iter` in `Seed::parse`. -/
def scan (s : Str) : List Placeholder := scanFuel s.length s

/-! ## Source identities (`src/loader/mod.rs`) -/

/-- The `Source` enum: the built-in variants plus `Custom` carrying the
unrecognized tag text. -/
inductive Source where
  | AwsEc2Tag : Source
  | AwsEc2Metadata : Source
  | AwsSsm : Source
  | Environment : Source
  | Custom : Str → Source
deriving DecidableEq, Repr

/-- Whether a source is one of the recognized built-ins. -/
def Source.isBuiltin : Source → Bool
  | .Custom _ => false
  | _ => true

/-- `Source::from`: map a tag to its source identity.  The built-in tags
are the `TEMPLATE_KEY` constants of the loader modules; any other tag
becomes `Custom` of the tag text.  (`from` is a Lean keyword, hence the
name `fromTag`.) -/
def Source.fromTag (key : Str) : Source :=
  if key = "awsec2tag".data then .AwsEc2Tag
  else if key = "awsec2metadata".data then .AwsEc2Metadata
  else if key = "awsssm".data then .AwsSsm
  else if key = "env".data then .Environment
  else .Custom key

/-! ## Loaders and the loader map of a `Seed` -/

/-- A loader is its `load` capability: a key to either a value or an
error. -/
structure Loader where
  load : Str → Except Err Str

/-- Association-list lookup; models `HashMap::get`/`contains_key` (the
first binding for a key is the current one, since insertion prepends). -/
def assocLookup {α β : Type} [DecidableEq α] : List (α × β) → α → Option β
  | [], _ => none
  | (a, b) :: rest, k => if a = k then some b else assocLookup rest k

abbrev LoaderMap := List (Source × Loader)

/-- The message built by `get_loader` for an unregistered custom source. -/
def unsupportedSourceMsg (tag : Str) : Str :=
  "Unsupported value source: ".data ++ tag ++
    ". If you're using a custom source, make sure you added the loader before parsing".data

/-- Context attached by `Seed::parse` to a `get_loader` failure. -/
def parseContextMsg : Str := "Failed to parse template string".data

/-- Context attached by `Seed::parse` to a `load` failure. -/
def loadContextMsg : Str := "Failed to load value".data

/-- Result of `Seed::get_loader`: the updated loader map, the list of
loader instances constructed during the call (instrumentation for the
caching claims), and the returned loader or error. -/
structure GetLoaderResult where
  loaders : LoaderMap
  constructed : List Source
  result : Except Err Loader

/-- `Seed::get_loader`: return the cached loader if one exists for the
source; otherwise construct the built-in default (behaviour `B source`),
store and return it, or fail for an unregistered custom source. -/
def getLoader (B : Source → Str → Except Err Str) (L : LoaderMap) (source : Source) :
    GetLoaderResult :=
  match assocLookup L source with
  | some l => ⟨L, [], .ok l⟩
  | none =>
    match source with
    | .AwsEc2Tag => ⟨(.AwsEc2Tag, ⟨B .AwsEc2Tag⟩) :: L, [.AwsEc2Tag], .ok ⟨B .AwsEc2Tag⟩⟩
    | .AwsEc2Metadata =>
        ⟨(.AwsEc2Metadata, ⟨B .AwsEc2Metadata⟩) :: L, [.AwsEc2Metadata],
          .ok ⟨B .AwsEc2Metadata⟩⟩
    | .AwsSsm => ⟨(.AwsSsm, ⟨B .AwsSsm⟩) :: L, [.AwsSsm], .ok ⟨B .AwsSsm⟩⟩
    | .Environment =>
        ⟨(.Environment, ⟨B .Environment⟩) :: L, [.Environment], .ok ⟨B .Environment⟩⟩
    | .Custom key => ⟨L, [], .error [unsupportedSourceMsg key]⟩

/-! ## `Seed::parse` -/

/-- Outcome of a parse: final loader map, construction trace, trace of
`load` invocations, and the replacement map (an association list in
insertion order) or the first error. -/
structure ParseOutcome where
  loaders : LoaderMap
  constructed : List Source
  calls : List Placeholder
  result : Except Err (List (Str × Str))

/-- The loop body of `Seed::parse` over the capture list: skip literals
already in the replacement map, otherwise fetch the loader for the
tag's source and load the value, aborting on the first failure. -/
def parseLoop (B : Source → Str → Except Err Str) :
    List Placeholder → LoaderMap → List (Str × Str) → List Source → List Placeholder →
      ParseOutcome
  | [], L, R, C, T => ⟨L, C, T, .ok R⟩
  | p :: ps, L, R, C, T =>
    if (assocLookup R p.literal).isSome then
      parseLoop B ps L R C T
    else
      match getLoader B L (Source.fromTag p.tag) with
      | ⟨L', c, .error e⟩ => ⟨L', C ++ c, T, .error (parseContextMsg :: e)⟩
      | ⟨L', c, .ok ld⟩ =>
        match ld.load p.key with
        | .error e => ⟨L', C ++ c, T ++ [p], .error (loadContextMsg :: e)⟩
        | .ok v => parseLoop B ps L' (R ++ [(p.literal, v)]) (C ++ c) (T ++ [p])

/-- A `Seed`: the template and the loader map. -/
structure Seed where
  template : Str
  loaders : LoaderMap

/-- `Seed::new`. -/
def Seed.new (template : Str) : Seed := ⟨template, []⟩

/-- `Seed::add_custom_loader`: store a loader under `Custom key`
(`HashMap::insert`, i.e. overwriting any previous binding). -/
def Seed.add_custom_loader (sd : Seed) (key : Str) (ld : Loader) : Seed :=
  ⟨sd.template, (Source.Custom key, ld) :: sd.loaders⟩

/-- `Seed::parse`: tokenize the template and run the loop. -/
def Seed.parse (B : Source → Str → Except Err Str) (sd : Seed) : ParseOutcome :=
  parseLoop B (scan sd.template) sd.loaders [] [] []

/-- The seed as mutated by a `parse` call (the loader map is updated in
place in the Rust code). -/
def Seed.afterParse (B : Source → Str → Except Err Str) (sd : Seed) : Seed :=
  ⟨sd.template, (sd.parse B).loaders⟩

/-! ## Replacement (`str::replace`) and `Seed::germinate` -/

/-- `str::replace` with explicit fuel: replace the leftmost occurrence
of `k`, continue after the inserted text, scanning left to right.  The
fuel is always instantiated with the length of the input; the patterns
arising in the program (placeholder literals) are never empty. -/
def replaceFuel (k v : Str) : Nat → Str → Str
  | 0, s => s
  | _ + 1, [] => []
  | n + 1, c :: rest =>
    if k ≠ [] ∧ k.isPrefixOf (c :: rest) then
      v ++ replaceFuel k v n (List.drop k.length (c :: rest))
    else
      c :: replaceFuel k v n rest

/-- `s.replace(&k, &v)`. -/
def replaceStr (s k v : Str) : Str := replaceFuel k v s.length s

/-- Split `s` at the leftmost non-overlapping occurrences of `k` (the
decomposition underlying `str::replace`), with explicit fuel. -/
def splitFuel (k : Str) : Nat → Str → List Str
  | 0, s => [s]
  | _ + 1, [] => [[]]
  | n + 1, c :: rest =>
    if k ≠ [] ∧ k.isPrefixOf (c :: rest) then
      [] :: splitFuel k n (List.drop k.length (c :: rest))
    else
      match splitFuel k n rest with
      | [] => [[c]]
      | h :: t => (c :: h) :: t

/-- The pieces of `s` between the non-overlapping occurrences of `k`. -/
def splitOnKey (s k : Str) : List Str := splitFuel k s.length s

/-- Join a list of strings with a separator. -/
def joinWith (sep : Str) : List Str → Str
  | [] => []
  | [x] => x
  | x :: xs => x ++ sep ++ joinWith sep xs

/-- Whether `k` occurs as a contiguous substring of `s`. -/
def occursIn (k : Str) : Str → Bool
  | [] => k.isEmpty
  | c :: rest => k.isPrefixOf (c :: rest) || occursIn k rest

/-- The substitution pass of `Seed::germinate`: fold `str::replace` over
the replacement map (Rust iterates the `HashMap` in arbitrary order; the
embedding fixes insertion order, one admissible order). -/
def applyReplacements (R : List (Str × Str)) (t : Str) : Str :=
  R.foldl (fun out kv => replaceStr out kv.1 kv.2) t

/-- `Seed::germinate`: parse, then replace every literal occurrence of
each replacement key by its value; propagate a parse error unchanged. -/
def Seed.germinate (B : Source → Str → Except Err Str) (sd : Seed) : Except Err Str :=
  match (sd.parse B).result with
  | .error e => .error e
  | .ok R => .ok (applyReplacements R sd.template)

/-! ## Pure description of one placeholder's resolution -/

/-- The loader that resolution of `source` would use against loader map
`L`: the cached entry if present, else the built-in default, else the
unsupported-source error.  `get_loader` returns exactly this (see
`getLoader_result_eq`), and parsing only ever extends `L` with built-in
defaults, so this function is invariant along a parse. -/
def effLoader (B : Source → Str → Except Err Str) (L : LoaderMap) (s : Source) :
    Except Err Loader :=
  match assocLookup L s with
  | some l => .ok l
  | none =>
    match s with
    | .Custom key => .error [unsupportedSourceMsg key]
    | s => .ok ⟨B s⟩

/-- Resolution of a single placeholder against loader map `L`: fetch the
loader for the tag's source and load the key, with the contexts that
`Seed::parse` attaches. -/
def resolveOne (B : Source → Str → Except Err Str) (L : LoaderMap) (p : Placeholder) :
    Except Err Str :=
  match effLoader B L (Source.fromTag p.tag) with
  | .error e => .error (parseContextMsg :: e)
  | .ok ld =>
    match ld.load p.key with
    | .error e => .error (loadContextMsg :: e)
    | .ok v => .ok v

/-- The replacement-map computation of `Seed::parse` expressed with a
fixed per-placeholder resolution function. -/
def pureLoop (f : Placeholder → Except Err Str) :
    List Placeholder → List (Str × Str) → Except Err (List (Str × Str))
  | [], R => .ok R
  | p :: ps, R =>
    if (assocLookup R p.literal).isSome then pureLoop f ps R
    else
      match f p with
      | .error e => .error e
      | .ok v => pureLoop f ps (R ++ [(p.literal, v)])

/-- First-occurrence deduplication of a placeholder list relative to a
set of already-seen literals. -/
def dedupNew (seen : List Str) : List Placeholder → List Placeholder
  | [] => []
  | p :: ps =>
    if p.literal ∈ seen then dedupNew seen ps
    else p :: dedupNew (p.literal :: seen) ps

/-! ## Tokenizer lemmas -/

theorem takeWhile_all_append {α : Type} {p : α → Bool} {l : List α} (r : List α)
    (h : ∀ c ∈ l, p c = true) : (l ++ r).takeWhile p = l ++ r.takeWhile p := by
  induction l with
  | nil => simp
  | cons a l ih =>
    have ha : p a = true := h a (by simp)
    simp only [List.cons_append, List.takeWhile_cons, ha, if_true]
    rw [ih fun c hc => h c (by simp [hc])]

theorem dropWhile_all_append {α : Type} {p : α → Bool} {l : List α} (r : List α)
    (h : ∀ c ∈ l, p c = true) : (l ++ r).dropWhile p = r.dropWhile p := by
  induction l with
  | nil => simp
  | cons a l ih =>
    have ha : p a = true := h a (by simp)
    simp only [List.cons_append, List.dropWhile_cons, ha, if_true]
    exact ih fun c hc => h c (by simp [hc])

theorem literal_ne_nil (p : Placeholder) : p.literal ≠ [] := by
  simp [Placeholder.literal]

theorem tagChar_colon : tagChar ':' = false := by decide

theorem tagChar_percent : tagChar '%' = false := by decide

/-- Soundness of the single-position matcher: a match is a well-formed
placeholder whose literal text is the consumed prefix. -/
theorem matchAt_sound {s : Str} {p : Placeholder} {r : Str}
    (h : matchAt s = some (p, r)) : p.WF ∧ s = p.literal ++ r := by
  cases s with
  | nil => simp [matchAt] at h
  | cons c rest =>
    simp only [matchAt] at h
    by_cases hc : c = '%'
    case neg => simp [hc] at h
    subst hc
    rw [if_neg (by simp)] at h
    by_cases htag : rest.takeWhile tagChar = []
    case pos => rw [if_pos htag] at h; simp at h
    rw [if_neg htag] at h
    rcases hdl : rest.dropWhile tagChar with _ | ⟨d, r2⟩
    · rw [hdl] at h; simp at h
    rw [hdl] at h; dsimp only at h
    by_cases hd : d = ':'
    case neg => rw [if_pos (by simpa using hd)] at h; simp at h
    subst hd
    rw [if_neg (by simp)] at h
    by_cases hkey : r2.takeWhile (fun x => x != '%') = []
    case pos => rw [if_pos hkey] at h; simp at h
    rw [if_neg hkey] at h
    rcases hdl2 : r2.dropWhile (fun x => x != '%') with _ | ⟨e, r4⟩
    · rw [hdl2] at h; simp at h
    rw [hdl2] at h; dsimp only at h
    by_cases he : e = '%'
    case neg => rw [if_pos (by simpa using he)] at h; simp at h
    subst he
    rw [if_neg (by simp)] at h
    rw [Option.some_inj, Prod.mk.injEq] at h
    obtain ⟨hp, hr⟩ := h
    subst hr
    have hrest : rest = rest.takeWhile tagChar ++ ':' :: r2 := by
      conv_lhs => rw [← List.takeWhile_append_dropWhile (p := tagChar) (l := rest)]
      rw [hdl]
    have hr2 : r2 = r2.takeWhile (fun x => x != '%') ++ '%' :: r4 := by
      conv_lhs =>
        rw [← List.takeWhile_append_dropWhile (p := fun x => x != '%') (l := r2)]
      rw [hdl2]
    subst hp
    constructor
    · refine ⟨htag, fun c hc => List.mem_takeWhile_imp hc, hkey, fun c hc => ?_⟩
      have := List.mem_takeWhile_imp hc
      simpa using this
    · have expand : (Placeholder.mk (rest.takeWhile tagChar)
          (r2.takeWhile (fun x => x != '%'))).literal ++ r4
          = '%' :: (rest.takeWhile tagChar ++ ':'
              :: (r2.takeWhile (fun x => x != '%') ++ '%' :: r4)) := by
        simp [Placeholder.literal]
      rw [expand, List.cons.injEq]
      refine ⟨rfl, ?_⟩
      conv_lhs => rw [hrest]
      refine congrArg (fun t => rest.takeWhile tagChar ++ ':' :: t) ?_
      conv_lhs => rw [hr2]

/-- Completeness of the single-position matcher: the literal of any
well-formed placeholder at the head of the input is matched, and the
match is exactly that literal (there is no other candidate: the two
greedy runs are forced by the grammar). -/
theorem matchAt_complete {p : Placeholder} (hp : p.WF) (w : Str) :
    matchAt (p.literal ++ w) = some (p, w) := by
  obtain ⟨ht, htc, hk, hkc⟩ := hp
  have hkc' : ∀ c ∈ p.key, (c != '%') = true := by
    intro c hc; simpa using hkc c hc
  have hlit : p.literal ++ w = '%' :: (p.tag ++ ':' :: (p.key ++ '%' :: w)) := by
    simp [Placeholder.literal]
  rw [hlit]
  have htake : (p.tag ++ ':' :: (p.key ++ '%' :: w)).takeWhile tagChar = p.tag := by
    rw [takeWhile_all_append _ htc, List.takeWhile_cons, tagChar_colon]
    simp
  have hdrop : (p.tag ++ ':' :: (p.key ++ '%' :: w)).dropWhile tagChar
      = ':' :: (p.key ++ '%' :: w) := by
    rw [dropWhile_all_append _ htc, List.dropWhile_cons, tagChar_colon]
    simp
  have htake2 : (p.key ++ '%' :: w).takeWhile (fun x => x != '%') = p.key := by
    rw [takeWhile_all_append _ hkc', List.takeWhile_cons]
    simp
  have hdrop2 : (p.key ++ '%' :: w).dropWhile (fun x => x != '%') = '%' :: w := by
    rw [dropWhile_all_append _ hkc', List.dropWhile_cons]
    simp
  simp only [matchAt, htake, hdrop, htake2, hdrop2]
  simp [ht, hk]

theorem matchAt_length {s : Str} {p : Placeholder} {r : Str}
    (h : matchAt s = some (p, r)) : r.length < s.length := by
  obtain ⟨-, hs⟩ := matchAt_sound h
  rw [hs, List.length_append]
  have hpos : 0 < p.literal.length := List.length_pos.mpr (literal_ne_nil p)
  omega

theorem scanFuel_succ_some {c : Char} {rest : Str} {p : Placeholder} {r : Str} {n : Nat}
    (h : matchAt (c :: rest) = some (p, r)) :
    scanFuel (n + 1) (c :: rest) = p :: scanFuel n r := by
  simp only [scanFuel]
  rw [h]

theorem scanFuel_succ_none {c : Char} {rest : Str} {n : Nat}
    (h : matchAt (c :: rest) = none) :
    scanFuel (n + 1) (c :: rest) = scanFuel n rest := by
  simp only [scanFuel]
  rw [h]

theorem scanFuel_mono : ∀ n m : Nat, ∀ s : Str, s.length ≤ n → s.length ≤ m →
    scanFuel n s = scanFuel m s := by
  intro n
  induction n with
  | zero =>
    intro m s hn _
    have hs : s = [] := List.length_eq_zero.mp (Nat.le_zero.mp hn)
    subst hs; cases m <;> rfl
  | succ n ih =>
    intro m s hn hm
    cases s with
    | nil => cases m <;> rfl
    | cons c rest =>
      cases m with
      | zero => simp at hm
      | succ m' =>
        cases hma : matchAt (c :: rest) with
        | none =>
          rw [scanFuel_succ_none hma, scanFuel_succ_none hma]
          exact ih m' rest (by simpa using hn) (by simpa using hm)
        | some pr =>
          obtain ⟨p, r⟩ := pr
          have hlen := matchAt_length hma
          rw [scanFuel_succ_some hma, scanFuel_succ_some hma,
            ih m' r (by simp at hlen hn ⊢; omega) (by simp at hlen hm ⊢; omega)]

theorem scan_eq_some {s : Str} {p : Placeholder} {r : Str}
    (h : matchAt s = some (p, r)) : scan s = p :: scan r := by
  cases s with
  | nil => simp [matchAt] at h
  | cons c rest =>
    have hlen := matchAt_length h
    unfold scan
    rw [List.length_cons, scanFuel_succ_some h,
      scanFuel_mono rest.length r.length r (by simp at hlen; omega) le_rfl]

theorem scan_eq_none {c : Char} {rest : Str} (h : matchAt (c :: rest) = none) :
    scan (c :: rest) = scan rest := by
  unfold scan
  rw [List.length_cons, scanFuel_succ_none h]

theorem scanFuel_wf : ∀ n : Nat, ∀ s : Str, ∀ p ∈ scanFuel n s, p.WF := by
  intro n
  induction n with
  | zero => intro s p hp; simp [scanFuel] at hp
  | succ n ih =>
    intro s p hp
    cases s with
    | nil => simp [scanFuel] at hp
    | cons c rest =>
      cases hma : matchAt (c :: rest) with
      | none =>
        rw [scanFuel_succ_none hma] at hp
        exact ih rest p hp
      | some pr =>
        obtain ⟨q, r⟩ := pr
        rw [scanFuel_succ_some hma] at hp
        rcases List.mem_cons.mp hp with rfl | hp'
        · exact (matchAt_sound hma).1
        · exact ih r p hp'

theorem scan_wf (s : Str) : ∀ p ∈ scan s, p.WF := scanFuel_wf s.length s

/-- On well-formed placeholders, the full literal text determines the
placeholder (this underlies deduplication by capture 1). -/
theorem literal_inj {p q : Placeholder} (hp : p.WF) (hq : q.WF)
    (h : p.literal = q.literal) : p = q := by
  obtain ⟨hpt, hptc, hpk, hpkc⟩ := hp
  obtain ⟨hqt, hqtc, hqk, hqkc⟩ := hq
  simp only [Placeholder.literal, List.cons.injEq, true_and] at h
  have htag : p.tag = q.tag := by
    have h1 : (p.tag ++ ':' :: (p.key ++ ['%'])).takeWhile tagChar = p.tag := by
      rw [takeWhile_all_append _ hptc, List.takeWhile_cons, tagChar_colon]
      simp
    have h2 : (q.tag ++ ':' :: (q.key ++ ['%'])).takeWhile tagChar = q.tag := by
      rw [takeWhile_all_append _ hqtc, List.takeWhile_cons, tagChar_colon]
      simp
    rw [← h1, ← h2, h]
  rw [htag] at h
  have hkey : p.key = q.key := by
    have h2 := List.append_cancel_left h
    rw [List.cons.injEq] at h2
    exact List.append_cancel_right h2.2
  cases p; cases q
  simp_all

/-! ## Loader registry lemmas -/

theorem assocLookup_cons {α β : Type} [DecidableEq α] (a : α) (b : β) (l : List (α × β))
    (k : α) : assocLookup ((a, b) :: l) k = if a = k then some b else assocLookup l k := rfl

theorem assocLookup_isSome_iff {α β : Type} [DecidableEq α] (l : List (α × β)) (k : α) :
    (assocLookup l k).isSome = true ↔ k ∈ l.map Prod.fst := by
  induction l with
  | nil => simp [assocLookup]
  | cons ab l ih =>
    obtain ⟨a, b⟩ := ab
    rw [assocLookup_cons]
    by_cases h : a = k
    · subst h; simp
    · simp only [if_neg h, List.map_cons, List.mem_cons, ih]
      have : ¬k = a := fun hh => h hh.symm
      simp [this]

theorem assocLookup_some_mem {α β : Type} [DecidableEq α] {l : List (α × β)} {k : α} {v : β}
    (h : assocLookup l k = some v) : (k, v) ∈ l := by
  induction l with
  | nil => simp [assocLookup] at h
  | cons ab l ih =>
    obtain ⟨a, b⟩ := ab
    rw [assocLookup_cons] at h
    by_cases hak : a = k
    · subst hak
      rw [if_pos rfl, Option.some_inj] at h
      subst h; simp
    · rw [if_neg hak] at h
      simp [ih h]

theorem getLoader_some {B : Source → Str → Except Err Str} {L : LoaderMap} {s : Source}
    {ld : Loader} (h : assocLookup L s = some ld) : getLoader B L s = ⟨L, [], .ok ld⟩ := by
  unfold getLoader; rw [h]

theorem getLoader_none_custom {B : Source → Str → Except Err Str} {L : LoaderMap} {key : Str}
    (h : assocLookup L (Source.Custom key) = none) :
    getLoader B L (Source.Custom key) = ⟨L, [], .error [unsupportedSourceMsg key]⟩ := by
  unfold getLoader; rw [h]

theorem getLoader_none_builtin {B : Source → Str → Except Err Str} {L : LoaderMap} {s : Source}
    (h : assocLookup L s = none) (hb : s.isBuiltin = true) :
    getLoader B L s = ⟨(s, ⟨B s⟩) :: L, [s], .ok ⟨B s⟩⟩ := by
  unfold getLoader; rw [h]
  cases s <;> first | rfl | simp [Source.isBuiltin] at hb

theorem getLoader_result_eq (B : Source → Str → Except Err Str) (L : LoaderMap) (s : Source) :
    (getLoader B L s).result = effLoader B L s := by
  unfold getLoader effLoader
  cases h : assocLookup L s
  · cases s <;> rfl
  · rfl

/-- The effective loader assignment is invariant under the cache
insertions that `get_loader` performs: a built-in default stored in the
map behaves exactly as the default that would be constructed. -/
theorem effLoader_getLoader (B : Source → Str → Except Err Str) (L : LoaderMap)
    (s s' : Source) : effLoader B (getLoader B L s).loaders s' = effLoader B L s' := by
  cases h : assocLookup L s with
  | some ld => rw [getLoader_some h]
  | none =>
    cases hb : s.isBuiltin with
    | false =>
      obtain ⟨key, rfl⟩ : ∃ k, s = .Custom k := by
        cases s <;> simp_all [Source.isBuiltin]
      rw [getLoader_none_custom h]
    | true =>
      rw [getLoader_none_builtin h hb]
      show effLoader B ((s, ⟨B s⟩) :: L) s' = effLoader B L s'
      unfold effLoader
      rw [assocLookup_cons]
      by_cases hss : s = s'
      · subst hss
        rw [if_pos rfl, h]
        cases s <;> first | rfl | simp [Source.isBuiltin] at hb
      · rw [if_neg hss]

theorem resolveOne_congr {B : Source → Str → Except Err Str} {L1 L2 : LoaderMap}
    (h : ∀ s, effLoader B L1 s = effLoader B L2 s) (p : Placeholder) :
    resolveOne B L1 p = resolveOne B L2 p := by
  unfold resolveOne; rw [h]

theorem resolveOne_eq_error {B : Source → Str → Except Err Str} {L : LoaderMap}
    {p : Placeholder} {e : Err} (h : effLoader B L (Source.fromTag p.tag) = .error e) :
    resolveOne B L p = .error (parseContextMsg :: e) := by
  unfold resolveOne; rw [h]

theorem resolveOne_eq_ok {B : Source → Str → Except Err Str} {L : LoaderMap}
    {p : Placeholder} {ld : Loader} (h : effLoader B L (Source.fromTag p.tag) = .ok ld) :
    resolveOne B L p
      = match ld.load p.key with
        | .error e => .error (loadContextMsg :: e)
        | .ok v => .ok v := by
  unfold resolveOne; rw [h]

theorem pureLoop_congr {f g : Placeholder → Except Err Str} :
    ∀ ps : List Placeholder, (∀ p ∈ ps, f p = g p) →
    ∀ R, pureLoop f ps R = pureLoop g ps R := by
  intro ps
  induction ps with
  | nil => intro _ R; rfl
  | cons p ps ih =>
    intro h R
    simp only [pureLoop]
    by_cases hskip : (assocLookup R p.literal).isSome
    · rw [if_pos hskip, if_pos hskip, ih (fun q hq => h q (by simp [hq]))]
    · rw [if_neg hskip, if_neg hskip, h p (by simp)]
      cases g p with
      | error e => rfl
      | ok v =>
        dsimp only
        rw [ih (fun q hq => h q (by simp [hq]))]

/-- The replacement map (or error) computed by the parse loop is the
pure fold of per-placeholder resolution against the initial loader map:
the cache mutations of `get_loader` never change any resolution. -/
theorem parseLoop_result (B : Source → Str → Except Err Str) :
    ∀ (ps : List Placeholder) (L : LoaderMap) (R : List (Str × Str)) (C : List Source)
      (T : List Placeholder),
    (parseLoop B ps L R C T).result = pureLoop (resolveOne B L) ps R := by
  intro ps
  induction ps with
  | nil => intro L R C T; rfl
  | cons p ps ih =>
    intro L R C T
    simp only [parseLoop, pureLoop]
    by_cases hskip : (assocLookup R p.literal).isSome
    · rw [if_pos hskip, if_pos hskip, ih]
    · rw [if_neg hskip, if_neg hskip]
      rcases hgl : getLoader B L (Source.fromTag p.tag) with ⟨L', c, res⟩
      have hres : res = effLoader B L (Source.fromTag p.tag) := by
        rw [← getLoader_result_eq B L (Source.fromTag p.tag), hgl]
      have heff : ∀ s, effLoader B L' s = effLoader B L s := by
        intro s
        rw [← effLoader_getLoader B L (Source.fromTag p.tag) s, hgl]
      subst hres
      cases heq : effLoader B L (Source.fromTag p.tag) with
      | error e =>
        rw [resolveOne_eq_error heq]
      | ok ld =>
        rw [resolveOne_eq_ok heq]
        dsimp only
        cases hload : ld.load p.key with
        | error e => rfl
        | ok v =>
          dsimp only
          rw [ih, pureLoop_congr ps (fun q _ => resolveOne_congr heff q)]

/-- If any well-formed placeholder in the list fails to resolve, the
pure loop returns an error (provided every key already in the
accumulator stands for a successfully resolved placeholder). -/
theorem pureLoop_error (f : Placeholder → Except Err Str) {p : Placeholder} {e : Err} :
    ∀ (ps : List Placeholder) (R : List (Str × Str)),
    (∀ q ∈ ps, q.WF) →
    (∀ k, k ∈ R.map Prod.fst → ∃ q v, q.WF ∧ k = q.literal ∧ f q = .ok v) →
    p ∈ ps → p.WF → f p = .error e →
    ∃ e', pureLoop f ps R = .error e' := by
  intro ps
  induction ps with
  | nil => intro R _ _ hp; simp at hp
  | cons q ps ih =>
    intro R hWF hR hp hpWF hpe
    simp only [pureLoop]
    by_cases hskip : (assocLookup R q.literal).isSome
    · rw [if_pos hskip]
      rcases List.mem_cons.mp hp with rfl | hp'
      · obtain ⟨q', v, hq'WF, hlit, hq'ok⟩ :=
          hR _ ((assocLookup_isSome_iff R p.literal).mp hskip)
        have hq'p : q' = p := literal_inj hq'WF hpWF hlit.symm
        rw [hq'p, hpe] at hq'ok
        exact absurd hq'ok (by simp)
      · exact ih R (fun q' hq' => hWF q' (by simp [hq'])) hR hp' hpWF hpe
    · rw [if_neg hskip]
      cases hfq : f q with
      | error e' => exact ⟨e', rfl⟩
      | ok v =>
        rcases List.mem_cons.mp hp with rfl | hp'
        · rw [hpe] at hfq
          exact absurd hfq (by simp)
        · dsimp only
          refine ih (R ++ [(q.literal, v)]) (fun q' hq' => hWF q' (by simp [hq'])) ?_ hp'
            hpWF hpe
          intro k hk
          rw [List.map_append, List.mem_append] at hk
          rcases hk with hk | hk
          · exact hR k hk
          · simp only [List.map_cons, List.map_nil, List.mem_singleton] at hk
            exact ⟨q, v, hWF q (by simp), hk, hfq⟩

/-! ## Deduplication lemmas -/

theorem dedupNew_sub : ∀ (seen : List Str) (ps : List Placeholder),
    ∀ q ∈ dedupNew seen ps, q ∈ ps := by
  intro seen ps
  induction ps generalizing seen with
  | nil => intro q hq; simp [dedupNew] at hq
  | cons p ps ih =>
    intro q hq
    simp only [dedupNew] at hq
    by_cases h : p.literal ∈ seen
    · rw [if_pos h] at hq
      exact List.mem_cons_of_mem p (ih seen q hq)
    · rw [if_neg h] at hq
      rcases List.mem_cons.mp hq with rfl | hq'
      · simp
      · exact List.mem_cons_of_mem p (ih _ q hq')

theorem dedupNew_congr : ∀ (ps : List Placeholder) (s1 s2 : List Str),
    (∀ k, k ∈ s1 ↔ k ∈ s2) → dedupNew s1 ps = dedupNew s2 ps := by
  intro ps
  induction ps with
  | nil => intro s1 s2 _; rfl
  | cons p ps ih =>
    intro s1 s2 h
    simp only [dedupNew]
    by_cases h1 : p.literal ∈ s1
    · rw [if_pos h1, if_pos ((h p.literal).mp h1), ih s1 s2 h]
    · rw [if_neg h1, if_neg (fun hh => h1 ((h p.literal).mpr hh))]
      rw [ih (p.literal :: s1) (p.literal :: s2) (by intro k; simp [h k])]

theorem dedupNew_count_zero {p : Placeholder} : ∀ (ps : List Placeholder) (seen : List Str),
    p.literal ∈ seen → (dedupNew seen ps).count p = 0 := by
  intro ps
  induction ps with
  | nil => intro seen _; rfl
  | cons q ps ih =>
    intro seen hmem
    simp only [dedupNew]
    by_cases h : q.literal ∈ seen
    · rw [if_pos h]
      exact ih seen hmem
    · rw [if_neg h]
      have hqp : ¬q = p := fun hh => h (hh ▸ hmem)
      rw [List.count_cons, ih (q.literal :: seen) (by simp [hmem])]
      simp [hqp]

theorem dedupNew_count_one {p : Placeholder} (hpWF : p.WF) :
    ∀ (ps : List Placeholder) (seen : List Str), (∀ q ∈ ps, q.WF) →
    p ∈ ps → p.literal ∉ seen → (dedupNew seen ps).count p = 1 := by
  intro ps
  induction ps with
  | nil => intro seen _ hp; simp at hp
  | cons q ps ih =>
    intro seen hWF hp hseen
    simp only [dedupNew]
    by_cases h : q.literal ∈ seen
    · have hqp : ¬q = p := fun hh => hseen (hh ▸ h)
      rw [if_pos h]
      rcases List.mem_cons.mp hp with rfl | hp'
      · exact absurd rfl hqp
      · exact ih seen (fun q' hq' => hWF q' (by simp [hq'])) hp' hseen
    · rw [if_neg h]
      by_cases hqp : q = p
      · subst hqp
        rw [List.count_cons, dedupNew_count_zero ps (q.literal :: seen) (by simp)]
        simp
      · have hlit : q.literal ≠ p.literal := fun hh =>
          hqp (literal_inj (hWF q (by simp)) hpWF hh)
        rcases List.mem_cons.mp hp with rfl | hp'
        · exact absurd rfl hqp
        · rw [List.count_cons,
            ih (q.literal :: seen) (fun q' hq' => hWF q' (by simp [hq'])) hp'
              (by simp only [List.mem_cons, not_or]
                  exact ⟨fun hh => hlit hh.symm, hseen⟩)]
          simp [hqp]

theorem count_literal_map {p : Placeholder} (hpWF : p.WF) :
    ∀ l : List Placeholder, (∀ q ∈ l, q.WF) →
    (l.map Placeholder.literal).count p.literal = l.count p := by
  intro l
  induction l with
  | nil => intro _; rfl
  | cons q l ih =>
    intro hWF
    simp only [List.map_cons, List.count_cons]
    rw [ih (fun q' hq' => hWF q' (by simp [hq']))]
    by_cases hqp : q = p
    · subst hqp; simp
    · have hlit : q.literal ≠ p.literal := fun hh =>
        hqp (literal_inj (hWF q (by simp)) hpWF hh)
      simp [hqp, hlit]

/-- On success, the call trace extends `T` by the first-occurrence
deduplication of `ps`, the new replacement keys are the literals of that
deduplication, the accumulator survives into the result, and each
deduplicated placeholder resolved (against the entry loader map) to the
value recorded for its literal. -/
theorem parseLoop_success (B : Source → Str → Except Err Str) :
    ∀ (ps : List Placeholder) (L : LoaderMap) (R : List (Str × Str)) (C : List Source)
      (T : List Placeholder) (m : List (Str × Str)),
    (parseLoop B ps L R C T).result = .ok m →
    (parseLoop B ps L R C T).calls = T ++ dedupNew (R.map Prod.fst) ps
    ∧ m.map Prod.fst
        = R.map Prod.fst ++ (dedupNew (R.map Prod.fst) ps).map Placeholder.literal
    ∧ (∀ kv ∈ R, kv ∈ m)
    ∧ (∀ q ∈ dedupNew (R.map Prod.fst) ps,
        ∃ v, resolveOne B L q = .ok v ∧ (q.literal, v) ∈ m) := by
  intro ps
  induction ps with
  | nil =>
    intro L R C T m hok
    simp only [parseLoop, Except.ok.injEq] at hok
    subst hok
    simp [parseLoop, dedupNew]
  | cons p ps ih =>
    intro L R C T m hok
    simp only [parseLoop] at hok ⊢
    by_cases hskip : (assocLookup R p.literal).isSome
    · rw [if_pos hskip] at hok ⊢
      have hmem : p.literal ∈ R.map Prod.fst := (assocLookup_isSome_iff R p.literal).mp hskip
      have hd : dedupNew (R.map Prod.fst) (p :: ps) = dedupNew (R.map Prod.fst) ps := by
        simp only [dedupNew, if_pos hmem]
      rw [hd]
      exact ih L R C T m hok
    · rw [if_neg hskip] at hok ⊢
      have hmem : p.literal ∉ R.map Prod.fst := fun hh =>
        hskip ((assocLookup_isSome_iff R p.literal).mpr hh)
      have hd : dedupNew (R.map Prod.fst) (p :: ps)
          = p :: dedupNew (p.literal :: R.map Prod.fst) ps := by
        simp only [dedupNew, if_neg hmem]
      rcases hgl : getLoader B L (Source.fromTag p.tag) with ⟨L', c, res⟩
      have hres : res = effLoader B L (Source.fromTag p.tag) := by
        rw [← getLoader_result_eq B L (Source.fromTag p.tag), hgl]
      have heff : ∀ s, effLoader B L' s = effLoader B L s := by
        intro s
        rw [← effLoader_getLoader B L (Source.fromTag p.tag) s, hgl]
      subst hres
      rw [hgl] at hok
      cases heq : effLoader B L (Source.fromTag p.tag) with
      | error e => rw [heq] at hok; simp at hok
      | ok ld =>
        rw [heq] at hok
        dsimp only at hok ⊢
        cases hload : ld.load p.key with
        | error e => rw [hload] at hok; simp at hok
        | ok v =>
          rw [hload] at hok
          dsimp only at hok ⊢
          obtain ⟨hcalls, hkeys, hsub, hval⟩ := ih L' (R ++ [(p.literal, v)]) (C ++ c)
            (T ++ [p]) m hok
          have hseen : dedupNew ((R ++ [(p.literal, v)]).map Prod.fst) ps
              = dedupNew (p.literal :: R.map Prod.fst) ps := by
            refine dedupNew_congr ps _ _ ?_
            intro k; simp; tauto
          constructor
          · rw [hcalls, hseen, hd]
            simp
          refine ⟨?_, ?_, ?_⟩
          · rw [hkeys, hseen, hd]
            simp
          · intro kv hkv
            exact hsub kv (by simp [hkv])
          · intro q hq
            rw [hd] at hq
            rcases List.mem_cons.mp hq with rfl | hq'
            · refine ⟨v, ?_, hsub (q.literal, v) (by simp)⟩
              rw [resolveOne_eq_ok heq, hload]
            · obtain ⟨v', hv', hmem'⟩ := hval q (by rw [hseen]; exact hq')
              exact ⟨v', ((resolveOne_congr heff q).symm).trans hv', hmem'⟩

/-! ## Loader-map state lemmas -/

/-- `get_loader` only adds bindings: existing bindings survive, every
constructed entry is a built-in default stored for a previously unbound
source, at most one instance is constructed, and no binding is lost. -/
theorem getLoader_state (B : Source → Str → Except Err Str) (L : LoaderMap) (s0 : Source) :
    (∀ s ld, assocLookup L s = some ld →
      assocLookup (getLoader B L s0).loaders s = some ld)
    ∧ (∀ s ∈ (getLoader B L s0).constructed, assocLookup L s = none
        ∧ s.isBuiltin = true ∧ assocLookup (getLoader B L s0).loaders s = some ⟨B s⟩)
    ∧ (∀ s, assocLookup (getLoader B L s0).loaders s = none → assocLookup L s = none)
    ∧ (getLoader B L s0).constructed.Nodup := by
  cases hlk : assocLookup L s0 with
  | some ld =>
    rw [getLoader_some hlk]
    exact ⟨fun s ld h => h, by simp, fun s h => h, by simp⟩
  | none =>
    by_cases hb : s0.isBuiltin = true
    · rw [getLoader_none_builtin hlk hb]
      refine ⟨fun s ld h => ?_, fun s hs => ?_, fun s h => ?_, by simp⟩
      · show assocLookup ((s0, ⟨B s0⟩) :: L) s = some ld
        rw [assocLookup_cons]
        by_cases hss : s0 = s
        · subst hss; rw [hlk] at h; exact absurd h (by simp)
        · rw [if_neg hss]; exact h
      · have hs0 : s = s0 := by simpa using hs
        subst hs0
        refine ⟨hlk, hb, ?_⟩
        show assocLookup ((s, ⟨B s⟩) :: L) s = some ⟨B s⟩
        rw [assocLookup_cons, if_pos rfl]
      · show assocLookup L s = none
        rw [assocLookup_cons] at h
        by_cases hss : s0 = s
        · rw [if_pos hss] at h; exact absurd h (by simp)
        · rw [if_neg hss] at h; exact h
    · obtain ⟨key, rfl⟩ : ∃ k, s0 = .Custom k := by
        cases s0 <;> simp_all [Source.isBuiltin]
      rw [getLoader_none_custom hlk]
      exact ⟨fun s ld h => h, by simp, fun s h => h, by simp⟩

/-- `Seed::parse` only adds to the loader map: initial bindings survive
unchanged (in particular a failing parse rolls nothing back), and every
constructed entry is a built-in default for a previously unbound source,
now bound in the final map. -/
theorem parseLoop_state (B : Source → Str → Except Err Str) :
    ∀ (ps : List Placeholder) (L : LoaderMap) (R : List (Str × Str)) (C : List Source)
      (T : List Placeholder),
    (∀ s ld, assocLookup L s = some ld →
      assocLookup (parseLoop B ps L R C T).loaders s = some ld)
    ∧ ∃ newC, (parseLoop B ps L R C T).constructed = C ++ newC
        ∧ ∀ s ∈ newC, assocLookup L s = none ∧ s.isBuiltin = true
            ∧ assocLookup (parseLoop B ps L R C T).loaders s = some ⟨B s⟩ := by
  intro ps
  induction ps with
  | nil =>
    intro L R C T
    exact ⟨fun s ld h => h, [], by simp [parseLoop], by simp⟩
  | cons p ps ih =>
    intro L R C T
    simp only [parseLoop]
    by_cases hskip : (assocLookup R p.literal).isSome
    · rw [if_pos hskip]
      exact ih L R C T
    · rw [if_neg hskip]
      obtain ⟨hg1, hg2, hg3, -⟩ := getLoader_state B L (Source.fromTag p.tag)
      rcases hgl : getLoader B L (Source.fromTag p.tag) with ⟨L', c, res⟩
      rw [hgl] at hg1 hg2 hg3
      dsimp only at hg1 hg2 hg3
      cases res with
      | error e =>
        dsimp only
        refine ⟨hg1, c, rfl, fun s hs => ?_⟩
        exact hg2 s hs
      | ok ld =>
        dsimp only
        cases ld.load p.key with
        | error e =>
          dsimp only
          refine ⟨hg1, c, rfl, fun s hs => ?_⟩
          exact hg2 s hs
        | ok v =>
          dsimp only
          obtain ⟨ha, newC, hnewC, hnew⟩ := ih L' (R ++ [(p.literal, v)]) (C ++ c) (T ++ [p])
          refine ⟨fun s ld h => ha s ld (hg1 s ld h), c ++ newC, by rw [hnewC]; simp,
            fun s hs => ?_⟩
          rcases List.mem_append.mp hs with hs | hs
          · obtain ⟨h1, h2, h3⟩ := hg2 s hs
            exact ⟨h1, h2, ha s _ h3⟩
          · obtain ⟨h1, h2, h3⟩ := hnew s hs
            exact ⟨hg3 s h1, h2, h3⟩

/-- Along a parse, each loader instance is constructed at most once: the
construction trace has no duplicates, and every constructed source ends
up bound in the loader map (so later requests hit the cache). -/
theorem parseLoop_nodup (B : Source → Str → Except Err Str) :
    ∀ (ps : List Placeholder) (L : LoaderMap) (R : List (Str × Str)) (C : List Source)
      (T : List Placeholder),
    C.Nodup → (∀ s ∈ C, (assocLookup L s).isSome = true) →
    (parseLoop B ps L R C T).constructed.Nodup
    ∧ (∀ s ∈ (parseLoop B ps L R C T).constructed,
        (assocLookup (parseLoop B ps L R C T).loaders s).isSome = true) := by
  intro ps
  induction ps with
  | nil => intro L R C T h1 h2; exact ⟨h1, h2⟩
  | cons p ps ih =>
    intro L R C T h1 h2
    simp only [parseLoop]
    by_cases hskip : (assocLookup R p.literal).isSome
    · rw [if_pos hskip]
      exact ih L R C T h1 h2
    · rw [if_neg hskip]
      obtain ⟨hg1, hg2, hg3, hg4⟩ := getLoader_state B L (Source.fromTag p.tag)
      rcases hgl : getLoader B L (Source.fromTag p.tag) with ⟨L', c, res⟩
      rw [hgl] at hg1 hg2 hg3 hg4
      dsimp only at hg1 hg2 hg3 hg4
      have hdisj : ∀ s ∈ c, s ∉ C := by
        intro s hs hsC
        have hnone := (hg2 s hs).1
        have hsome := h2 s hsC
        rw [hnone] at hsome
        exact absurd hsome (by simp)
      have hCc : (C ++ c).Nodup := by
        rw [List.nodup_append]
        exact ⟨h1, hg4, fun s hsC hsc => hdisj s hsc hsC⟩
      have hCc2 : ∀ s ∈ C ++ c, (assocLookup L' s).isSome = true := by
        intro s hs
        rcases List.mem_append.mp hs with hs | hs
        · obtain ⟨ld, hld⟩ := Option.isSome_iff_exists.mp (h2 s hs)
          rw [hg1 s ld hld]; rfl
        · rw [(hg2 s hs).2.2]; rfl
      cases res with
      | error e => dsimp only; exact ⟨hCc, hCc2⟩
      | ok ld =>
        dsimp only
        cases ld.load p.key with
        | error e => dsimp only; exact ⟨hCc, hCc2⟩
        | ok v =>
          dsimp only
          exact ih L' (R ++ [(p.literal, v)]) (C ++ c) (T ++ [p]) hCc hCc2

/-! ## Lemmas about `str::replace` -/

theorem isPrefixOf_decompose {k s : Str} (h : k.isPrefixOf s = true) :
    s = k ++ s.drop k.length := by
  obtain ⟨t, ht⟩ := List.isPrefixOf_iff_prefix.mp h
  rw [← ht, List.drop_left]

theorem drop_length_le {k : Str} (c : Char) (rest : Str) (hk : k ≠ []) :
    (List.drop k.length (c :: rest)).length ≤ rest.length := by
  rw [List.length_drop]
  have : 0 < k.length := List.length_pos.mpr hk
  simp only [List.length_cons]
  omega

theorem replaceFuel_mono (k v : Str) : ∀ n m : Nat, ∀ s : Str,
    s.length ≤ n → s.length ≤ m → replaceFuel k v n s = replaceFuel k v m s := by
  intro n
  induction n with
  | zero =>
    intro m s hn _
    have hs : s = [] := List.length_eq_zero.mp (Nat.le_zero.mp hn)
    subst hs; cases m <;> rfl
  | succ n ih =>
    intro m s hn hm
    cases s with
    | nil => cases m <;> rfl
    | cons c rest =>
      cases m with
      | zero => simp at hm
      | succ m' =>
        simp only [replaceFuel]
        by_cases hcond : k ≠ [] ∧ k.isPrefixOf (c :: rest) = true
        · rw [if_pos hcond, if_pos hcond,
            ih m' (List.drop k.length (c :: rest))
              (le_trans (drop_length_le c rest hcond.1) (by simpa using hn))
              (le_trans (drop_length_le c rest hcond.1) (by simpa using hm))]
        · rw [if_neg hcond, if_neg hcond,
            ih m' rest (by simpa using hn) (by simpa using hm)]

theorem splitFuel_mono (k : Str) : ∀ n m : Nat, ∀ s : Str,
    s.length ≤ n → s.length ≤ m → splitFuel k n s = splitFuel k m s := by
  intro n
  induction n with
  | zero =>
    intro m s hn _
    have hs : s = [] := List.length_eq_zero.mp (Nat.le_zero.mp hn)
    subst hs; cases m <;> rfl
  | succ n ih =>
    intro m s hn hm
    cases s with
    | nil => cases m <;> rfl
    | cons c rest =>
      cases m with
      | zero => simp at hm
      | succ m' =>
        simp only [splitFuel]
        by_cases hcond : k ≠ [] ∧ k.isPrefixOf (c :: rest) = true
        · rw [if_pos hcond, if_pos hcond,
            ih m' (List.drop k.length (c :: rest))
              (le_trans (drop_length_le c rest hcond.1) (by simpa using hn))
              (le_trans (drop_length_le c rest hcond.1) (by simpa using hm))]
        · rw [if_neg hcond, if_neg hcond,
            ih m' rest (by simpa using hn) (by simpa using hm)]

theorem replaceStr_nil (k v : Str) : replaceStr [] k v = [] := rfl

theorem replaceStr_pos {k : Str} (v : Str) {s : Str} (hk : k ≠ [])
    (hp : k.isPrefixOf s = true) :
    replaceStr s k v = v ++ replaceStr (s.drop k.length) k v := by
  cases s with
  | nil =>
    have : k = [] := by simpa using hp
    exact absurd this hk
  | cons c rest =>
    show replaceFuel k v (rest.length + 1) (c :: rest) = _
    simp only [replaceFuel, if_pos (And.intro hk hp)]
    rw [replaceFuel_mono k v rest.length (List.drop k.length (c :: rest)).length
      (List.drop k.length (c :: rest)) (drop_length_le c rest hk) le_rfl]
    rfl

theorem replaceStr_neg {k v : Str} {c : Char} {rest : Str}
    (h : ¬(k ≠ [] ∧ k.isPrefixOf (c :: rest) = true)) :
    replaceStr (c :: rest) k v = c :: replaceStr rest k v := by
  show replaceFuel k v (rest.length + 1) (c :: rest) = _
  simp only [replaceFuel, if_neg h]
  rfl

theorem splitFuel_ne_nil (k : Str) : ∀ n : Nat, ∀ s : Str, splitFuel k n s ≠ [] := by
  intro n
  induction n with
  | zero => intro s; simp [splitFuel]
  | succ n ih =>
    intro s
    cases s with
    | nil => simp [splitFuel]
    | cons c rest =>
      simp only [splitFuel]
      by_cases hcond : k ≠ [] ∧ k.isPrefixOf (c :: rest) = true
      · rw [if_pos hcond]; simp
      · rw [if_neg hcond]
        cases hsp : splitFuel k n rest with
        | nil => simp
        | cons h t => simp

theorem splitFuel_head_prefix (k : Str) : ∀ n : Nat, ∀ s h : Str, ∀ t : List Str,
    splitFuel k n s = h :: t → h <+: s := by
  intro n
  induction n with
  | zero =>
    intro s h t hsp
    simp only [splitFuel, List.cons.injEq] at hsp
    rw [← hsp.1]
  | succ n ih =>
    intro s h t hsp
    cases s with
    | nil =>
      simp only [splitFuel, List.cons.injEq] at hsp
      rw [← hsp.1]
    | cons c rest =>
      simp only [splitFuel] at hsp
      by_cases hcond : k ≠ [] ∧ k.isPrefixOf (c :: rest) = true
      · rw [if_pos hcond, List.cons.injEq] at hsp
        rw [← hsp.1]
        exact List.nil_prefix
      · rw [if_neg hcond] at hsp
        cases hsp2 : splitFuel k n rest with
        | nil => exact absurd hsp2 (splitFuel_ne_nil k n rest)
        | cons h' t' =>
          rw [hsp2, List.cons.injEq] at hsp
          rw [← hsp.1]
          obtain ⟨w, hw⟩ := ih rest h' t' hsp2
          exact ⟨w, by rw [List.cons_append, hw]⟩

theorem joinWith_cons (sep h : Str) {t : List Str} (ht : t ≠ []) :
    joinWith sep (h :: t) = h ++ sep ++ joinWith sep t := by
  cases t with
  | nil => exact absurd rfl ht
  | cons x t => rfl

theorem joinWith_splitFuel {k : Str} (hk : k ≠ []) : ∀ n : Nat, ∀ s : Str,
    s.length ≤ n → joinWith k (splitFuel k n s) = s := by
  intro n
  induction n with
  | zero =>
    intro s hn
    have hs : s = [] := List.length_eq_zero.mp (Nat.le_zero.mp hn)
    subst hs; rfl
  | succ n ih =>
    intro s hn
    cases s with
    | nil => rfl
    | cons c rest =>
      simp only [splitFuel]
      by_cases hcond : k ≠ [] ∧ k.isPrefixOf (c :: rest) = true
      · rw [if_pos hcond,
          joinWith_cons k [] (splitFuel_ne_nil k n (List.drop k.length (c :: rest))),
          ih (List.drop k.length (c :: rest))
            (le_trans (drop_length_le c rest hk) (by simpa using hn))]
        simp only [List.nil_append]
        exact (isPrefixOf_decompose hcond.2).symm
      · rw [if_neg hcond]
        cases hsp : splitFuel k n rest with
        | nil => exact absurd hsp (splitFuel_ne_nil k n rest)
        | cons h t =>
          have hjoin := ih rest (by simpa using hn)
          rw [hsp] at hjoin
          cases t with
          | nil =>
            simp only [joinWith] at hjoin ⊢
            rw [hjoin]
          | cons x t' =>
            rw [joinWith_cons k (c :: h) (by simp)]
            rw [joinWith_cons k h (by simp)] at hjoin
            simp only [List.cons_append, List.append_assoc] at hjoin ⊢
            rw [hjoin]

theorem replaceFuel_joinWith {k : Str} (v : Str) (hk : k ≠ []) : ∀ n : Nat, ∀ s : Str,
    s.length ≤ n → replaceFuel k v n s = joinWith v (splitFuel k n s) := by
  intro n
  induction n with
  | zero =>
    intro s hn
    have hs : s = [] := List.length_eq_zero.mp (Nat.le_zero.mp hn)
    subst hs; rfl
  | succ n ih =>
    intro s hn
    cases s with
    | nil => rfl
    | cons c rest =>
      simp only [replaceFuel, splitFuel]
      by_cases hcond : k ≠ [] ∧ k.isPrefixOf (c :: rest) = true
      · rw [if_pos hcond, if_pos hcond,
          joinWith_cons v [] (splitFuel_ne_nil k n (List.drop k.length (c :: rest))),
          ih (List.drop k.length (c :: rest))
            (le_trans (drop_length_le c rest hk) (by simpa using hn))]
        simp
      · rw [if_neg hcond, if_neg hcond, ih rest (by simpa using hn)]
        cases hsp : splitFuel k n rest with
        | nil => exact absurd hsp (splitFuel_ne_nil k n rest)
        | cons h t =>
          cases t with
          | nil => rfl
          | cons x t' =>
            rw [joinWith_cons v (c :: h) (by simp), joinWith_cons v h (by simp)]
            simp

theorem occursIn_nil (k : Str) : occursIn k [] = k.isEmpty := rfl

theorem occursIn_cons (k : Str) (c : Char) (rest : Str) :
    occursIn k (c :: rest) = (k.isPrefixOf (c :: rest) || occursIn k rest) := rfl

theorem splitFuel_not_contains {k : Str} (hk : k ≠ []) : ∀ n : Nat, ∀ s : Str,
    s.length ≤ n → ∀ u ∈ splitFuel k n s, occursIn k u = false := by
  intro n
  induction n with
  | zero =>
    intro s hn u hu
    have hs : s = [] := List.length_eq_zero.mp (Nat.le_zero.mp hn)
    subst hs
    simp only [splitFuel, List.mem_singleton] at hu
    subst hu
    simpa [occursIn_nil] using hk
  | succ n ih =>
    intro s hn u hu
    cases s with
    | nil =>
      simp only [splitFuel, List.mem_singleton] at hu
      subst hu
      simpa [occursIn_nil] using hk
    | cons c rest =>
      simp only [splitFuel] at hu
      by_cases hcond : k ≠ [] ∧ k.isPrefixOf (c :: rest) = true
      · rw [if_pos hcond] at hu
        rcases List.mem_cons.mp hu with rfl | hu'
        · simpa [occursIn_nil] using hk
        · exact ih (List.drop k.length (c :: rest))
            (le_trans (drop_length_le c rest hk) (by simpa using hn)) u hu'
      · rw [if_neg hcond] at hu
        cases hsp : splitFuel k n rest with
        | nil => exact absurd hsp (splitFuel_ne_nil k n rest)
        | cons h t =>
          rw [hsp] at hu
          rcases List.mem_cons.mp hu with rfl | hu'
          · rw [occursIn_cons]
            have hnp : ¬k.isPrefixOf (c :: rest) = true := fun hh => hcond ⟨hk, hh⟩
            have hhp : h <+: rest := splitFuel_head_prefix k n rest h t hsp
            have h1 : k.isPrefixOf (c :: h) = false := by
              rw [Bool.eq_false_iff]
              intro hh
              apply hnp
              rw [List.isPrefixOf_iff_prefix] at hh ⊢
              refine hh.trans ?_
              obtain ⟨w, hw⟩ := hhp
              exact ⟨w, by rw [List.cons_append, hw]⟩
            have h2 : occursIn k h = false :=
              ih rest (by simpa using hn) h (by rw [hsp]; simp)
            rw [h1, h2]
            rfl
          · exact ih rest (by simpa using hn) u (by rw [hsp]; simp [hu'])

theorem occursIn_false_replaceFuel {k : Str} (v : Str) : ∀ n : Nat, ∀ s : Str,
    occursIn k s = false → replaceFuel k v n s = s := by
  intro n
  induction n with
  | zero => intro s _; rfl
  | succ n ih =>
    intro s hocc
    cases s with
    | nil => rfl
    | cons c rest =>
      rw [occursIn_cons, Bool.or_eq_false_iff] at hocc
      simp only [replaceFuel]
      rw [if_neg (fun hcond => by rw [hocc.1] at hcond; exact absurd hcond.2 (by simp)),
        ih rest hocc.2]

/-- A string in which `k` does not occur is left unchanged by
`str::replace` of `k`: inserted text free of the remaining replacement
keys survives verbatim. -/
theorem replaceStr_of_not_occurs {k : Str} {s : Str} (v : Str)
    (h : occursIn k s = false) : replaceStr s k v = s :=
  occursIn_false_replaceFuel v s.length s h

/-- `str::replace` is the split-and-rejoin of the input at the leftmost
non-overlapping occurrences of the pattern: every occurrence of `k` is
replaced by `v`, and the pieces in between contain no occurrence. -/
theorem replaceStr_splits {k : Str} (v : Str) (s : Str) (hk : k ≠ []) :
    joinWith k (splitOnKey s k) = s
    ∧ replaceStr s k v = joinWith v (splitOnKey s k)
    ∧ ∀ u ∈ splitOnKey s k, occursIn k u = false :=
  ⟨joinWith_splitFuel hk s.length s le_rfl,
   replaceFuel_joinWith v hk s.length s le_rfl,
   splitFuel_not_contains hk s.length s le_rfl⟩

/-! ## Shared top-level lemmas -/

/-- If any placeholder occurrence of the template fails to resolve
against the seed's loader map, `parse` and `germinate` both error. -/
theorem parse_error_of_resolve_error (B : Source → Str → Except Err Str) (sd : Seed)
    {p : Placeholder} (hp : p ∈ scan sd.template) {e : Err}
    (hfail : resolveOne B sd.loaders p = .error e) :
    (∃ e', (sd.parse B).result = .error e') ∧ (∃ e', sd.germinate B = .error e') := by
  have hWF := scan_wf sd.template
  obtain ⟨e', he'⟩ := pureLoop_error (resolveOne B sd.loaders) (scan sd.template) []
    hWF (by simp) hp (hWF p hp) hfail
  have hres : (sd.parse B).result = .error e' := by
    show (parseLoop B (scan sd.template) sd.loaders [] [] []).result = _
    rw [parseLoop_result, he']
  refine ⟨⟨e', hres⟩, e', ?_⟩
  unfold Seed.germinate
  rw [hres]

/-- A concrete external behaviour: every built-in load returns `""`. -/
def okB : Source → Str → Except Err Str := fun _ _ => .ok []

/-! ## The claims -/

/-- Claim C1: for every template and configuration of loaders, if any
distinct placeholder fails to resolve, `Seed::parse` returns an error
and no replacement map, and `Seed::germinate` returns an error and no
output string: resolution either fully succeeds or fails with no
partial output. -/
theorem parse_all_or_nothing (B : Source → Str → Except Err Str) (sd : Seed)
    (p : Placeholder) (hp : p ∈ scan sd.template) {e : Err}
    (hfail : resolveOne B sd.loaders p = .error e) :
    (∃ e', (sd.parse B).result = .error e') ∧ (∃ e', sd.germinate B = .error e') :=
  parse_error_of_resolve_error B sd hp hfail

/-- Witness for C1 at a concrete seed with one unresolvable placeholder. -/
theorem parse_all_or_nothing_witness :
    ((⟨"zzz".data, "k".data⟩ : Placeholder) ∈ scan (Seed.new "%zzz:k%".data).template)
    ∧ (∃ e', ((Seed.new "%zzz:k%".data).parse okB).result = .error e')
    ∧ (∃ e', (Seed.new "%zzz:k%".data).germinate okB = .error e') :=
  ⟨by decide,
   parse_all_or_nothing okB (Seed.new "%zzz:k%".data) ⟨"zzz".data, "k".data⟩ (by decide)
     (e := [parseContextMsg, unsupportedSourceMsg "zzz".data]) rfl⟩

/-- Claim C2: a placeholder whose full literal occurs N >= 1 times in
the template is loaded exactly once on a successful parse, keys exactly
one replacement entry (holding the one loaded value), and germinate
applies for that entry one replacement step that substitutes the single
value at every occurrence of the literal (the split-and-rejoin
identities spell this out). -/
theorem parse_dedup_single_load (B : Source → Str → Except Err Str) (sd : Seed)
    (p : Placeholder) (N : Nat) (m : List (Str × Str))
    (hp : p ∈ scan sd.template) (hN : (scan sd.template).count p = N)
    (hok : (sd.parse B).result = .ok m) :
    1 ≤ N
    ∧ (sd.parse B).calls.count p = 1
    ∧ (m.map Prod.fst).count p.literal = 1
    ∧ ∃ v, resolveOne B sd.loaders p = .ok v ∧ (p.literal, v) ∈ m
        ∧ sd.germinate B = .ok (applyReplacements m sd.template)
        ∧ ∀ s : Str, joinWith p.literal (splitOnKey s p.literal) = s
            ∧ replaceStr s p.literal v = joinWith v (splitOnKey s p.literal)
            ∧ ∀ u ∈ splitOnKey s p.literal, occursIn p.literal u = false := by
  have hWF := scan_wf sd.template
  have hpWF := hWF p hp
  obtain ⟨hcalls, hkeys, -, hval⟩ :=
    parseLoop_success B (scan sd.template) sd.loaders [] [] [] m hok
  have hd1 : (dedupNew [] (scan sd.template)).count p = 1 :=
    dedupNew_count_one hpWF (scan sd.template) [] hWF hp (by simp)
  have hpd : p ∈ dedupNew [] (scan sd.template) :=
    List.count_pos_iff.mp (by rw [hd1]; omega)
  obtain ⟨v, hres, hvmem⟩ := hval p (by simpa using hpd)
  refine ⟨?_, ?_, ?_, v, hres, hvmem, ?_, ?_⟩
  · have : 0 < (scan sd.template).count p := List.count_pos_iff.mpr hp
    omega
  · show (parseLoop B (scan sd.template) sd.loaders [] [] []).calls.count p = 1
    rw [hcalls]
    simpa using hd1
  · rw [hkeys]
    simp only [List.map_nil, List.nil_append]
    have hsub := dedupNew_sub [] (scan sd.template)
    rw [count_literal_map hpWF _ (fun q hq => hWF q (hsub q hq))]
    exact hd1
  · unfold Seed.germinate
    rw [hok]
  · intro s
    exact replaceStr_splits v s (literal_ne_nil p)

/-- Witness for C2: template with the same placeholder twice, resolved
through a registered custom loader. -/
theorem parse_dedup_single_load_witness :
    ((⟨"c".data, "x".data⟩ : Placeholder)
        ∈ scan ((Seed.new "%c:x% %c:x%".data).add_custom_loader "c".data
          ⟨fun _ => .ok "V".data⟩).template)
    ∧ (((Seed.new "%c:x% %c:x%".data).add_custom_loader "c".data
          ⟨fun _ => .ok "V".data⟩).parse okB).calls.count ⟨"c".data, "x".data⟩ = 1 := by
  refine ⟨by decide, ?_⟩
  have h := parse_dedup_single_load okB
    ((Seed.new "%c:x% %c:x%".data).add_custom_loader "c".data ⟨fun _ => .ok "V".data⟩)
    ⟨"c".data, "x".data⟩ 2 [("%c:x%".data, "V".data)] (by decide) (by decide) rfl
  exact h.2.1

/-- A seed whose loader for tag `a` returns the literal text of the
other placeholder `%b:y%` as its value. -/
def c3Seed : Seed :=
  (((Seed.new "%a:x% %b:y%".data).add_custom_loader
      "b".data ⟨fun _ => .ok "v".data⟩).add_custom_loader
      "a".data ⟨fun _ => .ok "%b:y%".data⟩)

/-- Claim C3 counterexample: the value resolved for `%a:x%` is the
literal text of the other placeholder `%b:y%`; the later replacement
step rewrites the inserted text as well, so the output is `"v v"`, the
inserted text does not survive verbatim, and the output the claim
demands (`"%b:y% v"`) is not produced. -/
theorem germinate_reprocesses_inserted_value :
    (∃ m, (c3Seed.parse okB).result = .ok m ∧ ("%a:x%".data, "%b:y%".data) ∈ m)
    ∧ c3Seed.germinate okB = .ok "v v".data
    ∧ occursIn "%b:y%".data "v v".data = false
    ∧ c3Seed.germinate okB ≠ .ok "%b:y% v".data := by
  refine ⟨⟨[("%a:x%".data, "%b:y%".data), ("%b:y%".data, "v".data)], rfl, by decide⟩,
    rfl, by decide, ?_⟩
  intro h
  rw [show c3Seed.germinate okB = .ok "v v".data from rfl] at h
  simp only [Except.ok.injEq] at h
  exact absurd h (by decide)

/-- A seed whose loader for tag `a` returns the fragment `"%b:"`, which
contains no occurrence of the other placeholder's literal `%b:y%` but
forms one together with the text adjacent to the insertion point. -/
def c3bSeed : Seed :=
  (((Seed.new "%a:x%y% %b:y%".data).add_custom_loader
      "b".data ⟨fun _ => .ok "v".data⟩).add_custom_loader
      "a".data ⟨fun _ => .ok "%b:".data⟩)

/-- Claim C3 amended: germinate applies exactly one literal replacement
pass per map entry, sequentially over the whole intermediate string,
never re-scanning resolved values against the placeholder grammar and
never invoking a loader during substitution; and a string in which a key
does not occur is left unchanged by that key's replacement step.
Nothing shields inserted text from the remaining steps, which act on the
whole intermediate string: the last conjunct exhibits a rewrite that
destroys an inserted value (`"%b:"`) in which the later literal
(`%b:y%`) does not even occur, the occurrence arising across the
insertion boundary. -/
theorem germinate_single_pass (B : Source → Str → Except Err Str) (sd : Seed)
    (m : List (Str × Str)) (hok : (sd.parse B).result = .ok m) :
    sd.germinate B
      = .ok (m.foldl (fun out kv => replaceStr out kv.1 kv.2) sd.template)
    ∧ (∀ k v u : Str, occursIn k u = false → replaceStr u k v = u)
    ∧ (occursIn "%b:y%".data "%b:".data = false
        ∧ (∃ m', (c3bSeed.parse okB).result = .ok m'
            ∧ ("%a:x%".data, "%b:".data) ∈ m')
        ∧ c3bSeed.germinate okB = .ok "v v".data) := by
  refine ⟨?_, fun k v u h => replaceStr_of_not_occurs v h, by decide,
    ⟨[("%a:x%".data, "%b:".data), ("%b:y%".data, "v".data)], rfl, by decide⟩, rfl⟩
  unfold Seed.germinate
  rw [hok]
  rfl

/-- Witness for the amended C3 at the counterexample seed. -/
theorem germinate_single_pass_witness :
    c3Seed.germinate okB
      = .ok ([("%a:x%".data, "%b:y%".data), ("%b:y%".data, "v".data)].foldl
          (fun out kv => replaceStr out kv.1 kv.2) c3Seed.template)
    ∧ replaceStr "abc".data "zz".data "w".data = "abc".data :=
  ⟨(germinate_single_pass okB c3Seed
      [("%a:x%".data, "%b:y%".data), ("%b:y%".data, "v".data)] rfl).1,
   (germinate_single_pass okB c3Seed
      [("%a:x%".data, "%b:y%".data), ("%b:y%".data, "v".data)] rfl).2.1
     "zz".data "w".data "abc".data (by decide)⟩

/-- Claim C4: a Custom-tag placeholder with no registered loader makes
its resolution fail with the unsupported-source error naming the tag,
makes parse and germinate fail with no output, and registering a loader
for the tag first makes that placeholder resolve through the registered
loader. -/
theorem unregistered_custom_fails_registered_succeeds
    (B : Source → Str → Except Err Str) (sd : Seed) (tag key : Str)
    (htag : Source.fromTag tag = .Custom tag)
    (hp : (⟨tag, key⟩ : Placeholder) ∈ scan sd.template)
    (hnone : assocLookup sd.loaders (Source.Custom tag) = none) :
    resolveOne B sd.loaders ⟨tag, key⟩
        = .error [parseContextMsg, unsupportedSourceMsg tag]
    ∧ (∃ e, (sd.parse B).result = .error e)
    ∧ (∃ e, sd.germinate B = .error e)
    ∧ ∀ (ld : Loader) (v : Str), ld.load key = .ok v →
        resolveOne B (sd.add_custom_loader tag ld).loaders ⟨tag, key⟩ = .ok v := by
  have heff : effLoader B sd.loaders (Source.fromTag tag)
      = .error [unsupportedSourceMsg tag] := by
    rw [htag]
    unfold effLoader
    rw [hnone]
  have hres : resolveOne B sd.loaders ⟨tag, key⟩
      = .error [parseContextMsg, unsupportedSourceMsg tag] :=
    resolveOne_eq_error (p := ⟨tag, key⟩) heff
  obtain ⟨h1, h2⟩ := parse_error_of_resolve_error B sd hp hres
  refine ⟨hres, h1, h2, ?_⟩
  intro ld v hv
  have heff2 : effLoader B (sd.add_custom_loader tag ld).loaders
      (Source.fromTag (⟨tag, key⟩ : Placeholder).tag) = .ok ld := by
    show effLoader B ((Source.Custom tag, ld) :: sd.loaders) (Source.fromTag tag) = .ok ld
    rw [htag]
    unfold effLoader
    rw [assocLookup_cons, if_pos rfl]
  rw [resolveOne_eq_ok heff2, hv]

/-- A custom loader answering `"w"` regardless of the key. -/
def c4ld : Loader := ⟨fun _ => .ok "w".data⟩

/-- Witness for C4 at a concrete seed. -/
theorem unregistered_custom_fails_registered_succeeds_witness :
    resolveOne okB (Seed.new "%zzz:k%".data).loaders ⟨"zzz".data, "k".data⟩
        = .error [parseContextMsg, unsupportedSourceMsg "zzz".data]
    ∧ (∃ e, ((Seed.new "%zzz:k%".data).parse okB).result = .error e)
    ∧ (∃ e, (Seed.new "%zzz:k%".data).germinate okB = .error e)
    ∧ resolveOne okB
        ((Seed.new "%zzz:k%".data).add_custom_loader "zzz".data c4ld).loaders
        ⟨"zzz".data, "k".data⟩ = .ok "w".data := by
  obtain ⟨h1, h2, h3, h4⟩ := unregistered_custom_fails_registered_succeeds okB
    (Seed.new "%zzz:k%".data) "zzz".data "k".data (by decide) (by decide) rfl
  exact ⟨h1, h2, h3, h4 c4ld "w".data rfl⟩

/-- Claim C5: within one seed, `get_loader` returns the cached loader
whenever one exists, lazily constructs and stores a built-in default
only on a first request, and along a whole parse every source identity
is constructed at most once, each constructed default ending up (and
staying) in the loader map. -/
theorem loader_constructed_at_most_once (B : Source → Str → Except Err Str) (sd : Seed) :
    (∀ (L : LoaderMap) (s : Source) (ld : Loader), assocLookup L s = some ld →
      getLoader B L s = ⟨L, [], .ok ld⟩)
    ∧ (∀ (L : LoaderMap) (s : Source), assocLookup L s = none → s.isBuiltin = true →
      getLoader B L s = ⟨(s, ⟨B s⟩) :: L, [s], .ok ⟨B s⟩⟩)
    ∧ (sd.parse B).constructed.Nodup
    ∧ (∀ s ∈ (sd.parse B).constructed,
        assocLookup sd.loaders s = none ∧ s.isBuiltin = true
        ∧ assocLookup (sd.parse B).loaders s = some ⟨B s⟩) := by
  refine ⟨fun L s ld h => getLoader_some h, fun L s h hb => getLoader_none_builtin h hb,
    ?_, ?_⟩
  · exact (parseLoop_nodup B (scan sd.template) sd.loaders [] [] [] (by simp) (by simp)).1
  · intro s hs
    obtain ⟨-, newC, hnewC, hnew⟩ := parseLoop_state B (scan sd.template) sd.loaders [] [] []
    have hconstr : (sd.parse B).constructed = newC := by simpa using hnewC
    rw [hconstr] at hs
    exact hnew s hs

/-- Witness for C5: one built-in constructed once, then cached. -/
theorem loader_constructed_at_most_once_witness :
    getLoader okB [] Source.Environment
      = ⟨[(Source.Environment, ⟨okB Source.Environment⟩)], [Source.Environment],
          .ok ⟨okB Source.Environment⟩⟩
    ∧ ((Seed.new "%env:A% %env:B%".data).parse okB).constructed.Nodup
    ∧ assocLookup ((Seed.new "%env:A% %env:B%".data).parse okB).loaders
        Source.Environment = some ⟨okB Source.Environment⟩ :=
  ⟨(loader_constructed_at_most_once okB (Seed.new "%env:A% %env:B%".data)).2.1
      [] Source.Environment rfl rfl,
   (loader_constructed_at_most_once okB (Seed.new "%env:A% %env:B%".data)).2.2.1,
   ((loader_constructed_at_most_once okB (Seed.new "%env:A% %env:B%".data)).2.2.2
      Source.Environment (by decide)).2.2⟩

/-- A grammar match (spec pattern `%[a-z0-9]+:[^%]+%`) starts at the
head of `s`. -/
def MatchPrefix (s : Str) : Prop := ∃ p : Placeholder, p.WF ∧ p.literal <+: s

/-- A grammar match starts at position `i` of `s`. -/
def MatchAtPos (s : Str) (i : Nat) : Prop := MatchPrefix (s.drop i)

/-- Declarative leftmost, greedy, non-overlapping tokenization per the
grammar: a position is skipped only when no match starts there; when a
match starts, its placeholder is emitted and scanning resumes after the
full literal (so overlapping candidates are not matched). -/
inductive Tok : Str → List Placeholder → Prop where
  | nil : Tok [] []
  | skip {c : Char} {s : Str} {out : List Placeholder} :
      ¬MatchPrefix (c :: s) → Tok s out → Tok (c :: s) out
  | take {p : Placeholder} {rest : Str} {out : List Placeholder} :
      p.WF → Tok rest out → Tok (p.literal ++ rest) (p :: out)

/-- The declarative head-match predicate agrees with the executable
matcher. -/
theorem MatchPrefix_iff (s : Str) : MatchPrefix s ↔ (matchAt s).isSome = true := by
  constructor
  · rintro ⟨p, hWF, w, hw⟩
    rw [← hw, matchAt_complete hWF w]
    rfl
  · intro h
    obtain ⟨⟨p, r⟩, hm⟩ := Option.isSome_iff_exists.mp h
    obtain ⟨hWF, hs⟩ := matchAt_sound hm
    exact ⟨p, hWF, r, hs.symm⟩

theorem tok_scanFuel : ∀ n : Nat, ∀ s : Str, s.length ≤ n → Tok s (scanFuel n s) := by
  intro n
  induction n with
  | zero =>
    intro s hn
    have hs : s = [] := List.length_eq_zero.mp (Nat.le_zero.mp hn)
    subst hs
    exact Tok.nil
  | succ n ih =>
    intro s hn
    cases s with
    | nil => exact Tok.nil
    | cons c rest =>
      cases hma : matchAt (c :: rest) with
      | some pr =>
        obtain ⟨p, r⟩ := pr
        rw [scanFuel_succ_some hma]
        obtain ⟨hWF, hs⟩ := matchAt_sound hma
        rw [hs]
        have hlen := matchAt_length hma
        exact Tok.take hWF (ih r (by simp at hlen hn ⊢; omega))
      | none =>
        rw [scanFuel_succ_none hma]
        refine Tok.skip (fun hmp => ?_) (ih rest (by simpa using hn))
        rw [MatchPrefix_iff, hma] at hmp
        exact absurd hmp (by simp)

theorem tok_scan (s : Str) : Tok s (scan s) := tok_scanFuel s.length s le_rfl

theorem tok_deterministic : ∀ {s : Str} {out : List Placeholder}, Tok s out → out = scan s := by
  intro s out h
  induction h with
  | nil => rfl
  | @skip c s' out' hmp _ ih =>
    have hma : matchAt (c :: s') = none := by
      cases hma : matchAt (c :: s') with
      | none => rfl
      | some pr =>
        rw [MatchPrefix_iff, hma] at hmp
        exact absurd (by simp : (some pr).isSome = true) hmp
    rw [scan_eq_none hma]
    exact ih
  | @take p rest out' hWF _ ih =>
    rw [scan_eq_some (matchAt_complete hWF rest), ih]

theorem scan_empty_of_no_match : ∀ s : Str, (∀ i : Nat, ¬MatchAtPos s i) → scan s = [] := by
  intro s
  induction s with
  | nil => intro _; rfl
  | cons c rest ih =>
    intro h
    have h0 : ¬MatchPrefix (c :: rest) := by
      have := h 0
      simpa [MatchAtPos] using this
    have hma : matchAt (c :: rest) = none := by
      cases hma : matchAt (c :: rest) with
      | none => rfl
      | some pr =>
        rw [MatchPrefix_iff, hma] at h0
        exact absurd (by simp : (some pr).isSome = true) h0
    rw [scan_eq_none hma]
    refine ih fun i => ?_
    have := h (i + 1)
    simpa [MatchAtPos] using this

/-- Claim C6: the tokenizing pass finds exactly the greedy, leftmost,
non-overlapping matches of the grammar `%[a-z0-9]+:[^%]+%`: the scan is
a declarative tokenization, it is the only one, an input with no match
anywhere yields the empty list, and an unterminated placeholder is
simply not matched. -/
theorem tokenizer_correct :
    (∀ s : Str, Tok s (scan s))
    ∧ (∀ (s : Str) (out : List Placeholder), Tok s out → out = scan s)
    ∧ (∀ s : Str, (∀ i : Nat, ¬MatchAtPos s i) → scan s = [])
    ∧ scan "%env:HOME".data = [] :=
  ⟨tok_scan, fun _ _ h => tok_deterministic h, scan_empty_of_no_match, by decide⟩

/-- Witness for C6 at a concrete no-match input. -/
theorem tokenizer_correct_witness : scan "abc".data = [] :=
  tokenizer_correct.2.2.1 "abc".data (by
    intro i
    show ¬MatchPrefix (List.drop i "abc".data)
    rw [MatchPrefix_iff]
    match i with
    | 0 => decide
    | 1 => decide
    | 2 => decide
    | n + 3 =>
      rw [show List.drop (n + 3) "abc".data = [] from List.drop_eq_nil_of_le (by simp)]
      decide)

/-- Claim C7: the source resolver is a total pure function from tag
strings to source identities with no failure mode: each built-in tag
maps to its built-in identity and every other tag to `Custom` of the
tag text. -/
theorem source_resolver_total :
    Source.fromTag "awsec2tag".data = .AwsEc2Tag
    ∧ Source.fromTag "awsec2metadata".data = .AwsEc2Metadata
    ∧ Source.fromTag "awsssm".data = .AwsSsm
    ∧ Source.fromTag "env".data = .Environment
    ∧ ∀ tag : Str, tag ≠ "awsec2tag".data → tag ≠ "awsec2metadata".data →
        tag ≠ "awsssm".data → tag ≠ "env".data → Source.fromTag tag = .Custom tag := by
  refine ⟨by decide, by decide, by decide, by decide, ?_⟩
  intro tag h1 h2 h3 h4
  unfold Source.fromTag
  rw [if_neg h1, if_neg h2, if_neg h3, if_neg h4]

/-- Witness for C7 at an unknown tag. -/
theorem source_resolver_total_witness :
    Source.fromTag "zzz".data = .Custom "zzz".data :=
  source_resolver_total.2.2.2.2 "zzz".data (by decide) (by decide) (by decide) (by decide)

/-- A built-in behaviour distinguishing the Environment default. -/
def c8B : Source → Str → Except Err Str := fun s _ =>
  match s with
  | .Environment => .ok "builtin".data
  | _ => .ok []

/-- A custom loader answering `"custom"` regardless of the key. -/
def c8ld : Loader := ⟨fun _ => .ok "custom".data⟩

/-- A seed that registers `c8ld` under the built-in tag `env`. -/
def c8Seed : Seed := (Seed.new "%env:X%".data).add_custom_loader "env".data c8ld

/-- Claim C8 counterexample: registering a loader under the built-in tag
`env` stores it at `Custom "env"`, but the placeholder `%env:X%` still
resolves through the lazily constructed Environment default, not the
registered loader: the output is the built-in's value, not the
caller-supplied one. -/
theorem add_custom_loader_does_not_override_builtin :
    assocLookup c8Seed.loaders (Source.Custom "env".data) = some c8ld
    ∧ (c8Seed.parse c8B).result = .ok [("%env:X%".data, "builtin".data)]
    ∧ c8Seed.germinate c8B = .ok "builtin".data
    ∧ c8Seed.germinate c8B ≠ .ok "custom".data := by
  refine ⟨rfl, rfl, rfl, ?_⟩
  intro h
  rw [show c8Seed.germinate c8B = .ok "builtin".data from rfl] at h
  simp only [Except.ok.injEq] at h
  exact absurd h (by decide)

/-- Claim C8 amended: `add_custom_loader` stores the loader under the
`Custom` identity of the given key, overwriting any previous binding for
that identity, and never fails; it leaves the template and every other
source's binding unchanged, and when the key is a built-in tag it does
not affect resolution of that tag (built-in tags resolve to built-in
identities, never to the `Custom` identity the registration wrote). -/
theorem add_custom_loader_stores_custom (sd : Seed) (key : Str) (ld : Loader) :
    assocLookup (sd.add_custom_loader key ld).loaders (Source.Custom key) = some ld
    ∧ (sd.add_custom_loader key ld).template = sd.template
    ∧ (∀ s : Source, s ≠ Source.Custom key →
        assocLookup (sd.add_custom_loader key ld).loaders s = assocLookup sd.loaders s)
    ∧ ∀ B : Source → Str → Except Err Str, Source.fromTag key ≠ Source.Custom key →
        effLoader B (sd.add_custom_loader key ld).loaders (Source.fromTag key)
          = effLoader B sd.loaders (Source.fromTag key) := by
  refine ⟨?_, rfl, ?_, ?_⟩
  · show assocLookup ((Source.Custom key, ld) :: sd.loaders) (Source.Custom key) = some ld
    rw [assocLookup_cons, if_pos rfl]
  · intro s hs
    show assocLookup ((Source.Custom key, ld) :: sd.loaders) s = _
    rw [assocLookup_cons, if_neg (fun hh => hs hh.symm)]
  · intro B hne
    have hlk : assocLookup (sd.add_custom_loader key ld).loaders (Source.fromTag key)
        = assocLookup sd.loaders (Source.fromTag key) := by
      show assocLookup ((Source.Custom key, ld) :: sd.loaders) _ = _
      rw [assocLookup_cons, if_neg (fun hh => hne hh.symm)]
    unfold effLoader
    rw [hlk]

/-- Witness for the amended C8 at the counterexample seed. -/
theorem add_custom_loader_stores_custom_witness :
    assocLookup c8Seed.loaders (Source.Custom "env".data) = some c8ld
    ∧ effLoader c8B c8Seed.loaders (Source.fromTag "env".data)
        = effLoader c8B (Seed.new "%env:X%".data).loaders (Source.fromTag "env".data) :=
  ⟨(add_custom_loader_stores_custom (Seed.new "%env:X%".data) "env".data c8ld).1,
   (add_custom_loader_stores_custom (Seed.new "%env:X%".data) "env".data c8ld).2.2.2
     c8B (by decide)⟩

/-- Claim C9: when parse fails partway, initial bindings and the loaders
already constructed and cached remain in the seed's loader map: the
failure withholds the replacement map but rolls back nothing, and a
later parse on the same seed constructs none of them again. -/
theorem parse_failure_keeps_cached_loaders (B : Source → Str → Except Err Str)
    (sd : Seed) (e : Err) (hfail : (sd.parse B).result = .error e) :
    (∀ (s : Source) (ld : Loader), assocLookup sd.loaders s = some ld →
      assocLookup (sd.parse B).loaders s = some ld)
    ∧ (∀ s ∈ (sd.parse B).constructed,
        assocLookup sd.loaders s = none
        ∧ assocLookup (sd.parse B).loaders s = some ⟨B s⟩)
    ∧ ∀ s ∈ (sd.parse B).constructed, s ∉ ((sd.afterParse B).parse B).constructed := by
  obtain ⟨ha, newC, hnewC, hnew⟩ := parseLoop_state B (scan sd.template) sd.loaders [] [] []
  have hconstr : (sd.parse B).constructed = newC := by simpa using hnewC
  refine ⟨ha, ?_, ?_⟩
  · intro s hs
    rw [hconstr] at hs
    exact ⟨(hnew s hs).1, (hnew s hs).2.2⟩
  · intro s hs hs2
    obtain ⟨-, newC2, hnewC2, hnew2⟩ :=
      parseLoop_state B (scan sd.template) (sd.parse B).loaders [] [] []
    have hconstr2 : ((sd.afterParse B).parse B).constructed = newC2 := by
      simpa using hnewC2
    rw [hconstr2] at hs2
    have hnone := (hnew2 s hs2).1
    rw [hconstr] at hs
    have hsome : assocLookup (sd.parse B).loaders s = some ⟨B s⟩ := (hnew s hs).2.2
    rw [hsome] at hnone
    exact absurd hnone (by simp)

/-- A seed whose first placeholder resolves through the Environment
built-in and whose second placeholder has an unregistered custom tag. -/
def c9Seed : Seed := Seed.new "%env:A% %zzz:b%".data

/-- Witness for C9: the Environment default survives the failed parse
and is not constructed again by a second parse. -/
theorem parse_failure_keeps_cached_loaders_witness :
    (∃ s ∈ (c9Seed.parse okB).constructed,
      assocLookup (c9Seed.parse okB).loaders s = some ⟨okB s⟩)
    ∧ Source.Environment ∉ ((c9Seed.afterParse okB).parse okB).constructed := by
  obtain ⟨-, h2, h3⟩ := parse_failure_keeps_cached_loaders okB c9Seed
    [parseContextMsg, unsupportedSourceMsg "zzz".data] rfl
  exact ⟨⟨Source.Environment, by decide, (h2 Source.Environment (by decide)).2⟩,
    h3 Source.Environment (by decide)⟩

/-- Claim C10: registering a loader under a key that cannot be a
tokenized tag (the empty string, or any key containing a character
outside `[a-z0-9]`) never changes the observable result of parse or
germinate on any template. -/
theorem foreign_key_registration_invisible (B : Source → Str → Except Err Str)
    (sd : Seed) (key : Str) (ld : Loader)
    (hbad : key = [] ∨ ∃ c ∈ key, tagChar c = false) :
    ((sd.add_custom_loader key ld).parse B).result = (sd.parse B).result
    ∧ (sd.add_custom_loader key ld).germinate B = sd.germinate B := by
  have hres : ∀ p ∈ scan sd.template,
      resolveOne B ((Source.Custom key, ld) :: sd.loaders) p
        = resolveOne B sd.loaders p := by
    intro p hp
    have hWF := scan_wf sd.template p hp
    have htagne : p.tag ≠ key := by
      rcases hbad with rfl | ⟨c, hc, hcbad⟩
      · exact hWF.1
      · intro hh
        have := hWF.2.1 c (hh ▸ hc)
        rw [this] at hcbad
        exact absurd hcbad (by simp)
    have hsne : Source.fromTag p.tag ≠ Source.Custom key := by
      unfold Source.fromTag
      split_ifs
      · simp
      · simp
      · simp
      · simp
      · simp [htagne]
    have heq : effLoader B ((Source.Custom key, ld) :: sd.loaders) (Source.fromTag p.tag)
        = effLoader B sd.loaders (Source.fromTag p.tag) := by
      unfold effLoader
      rw [assocLookup_cons, if_neg (fun hh => hsne hh.symm)]
    unfold resolveOne
    rw [heq]
  have hpl : pureLoop (resolveOne B ((Source.Custom key, ld) :: sd.loaders))
        (scan sd.template) []
      = pureLoop (resolveOne B sd.loaders) (scan sd.template) [] :=
    pureLoop_congr (scan sd.template) hres []
  have h1 : ((sd.add_custom_loader key ld).parse B).result = (sd.parse B).result := by
    show (parseLoop B (scan sd.template) ((Source.Custom key, ld) :: sd.loaders)
        [] [] []).result
      = (parseLoop B (scan sd.template) sd.loaders [] [] []).result
    rw [parseLoop_result, parseLoop_result, hpl]
  refine ⟨h1, ?_⟩
  unfold Seed.germinate
  rw [h1]
  cases (sd.parse B).result <;> rfl

/-- Witness for C10 at an uppercase key. -/
theorem foreign_key_registration_invisible_witness :
    (((Seed.new "%env:A%".data).add_custom_loader "ENV".data c8ld).parse okB).result
      = ((Seed.new "%env:A%".data).parse okB).result
    ∧ ((Seed.new "%env:A%".data).add_custom_loader "ENV".data c8ld).germinate okB
      = (Seed.new "%env:A%".data).germinate okB :=
  foreign_key_registration_invisible okB (Seed.new "%env:A%".data) "ENV".data c8ld
    (Or.inr ⟨'E', by decide, by decide⟩)

end Germinate
